import Mathlib

/-!
Verification development for the codebase-indexing repository.

Shallow embedding of the indexing core:
* `src/fsutil.ts` — `sha256` (delegated to node:crypto, modelled as an
  abstract hash parameter), `loadIgnore`, `shouldIndex`, `withinSizeLimit`,
  `chunkByLines`;
* `src/meili.ts` — `addDocuments`, `deleteByFilePath` (network effects
  modelled as explicit state passing over the stored document list);
* `src/indexer.ts` — `buildDocumentId`, `documentsForFile`, `reindexFile`,
  `rebuildRepository`, and the watch-mode change queue (promise chain
  modelled as a strictly sequential task list fold).

Machine numbers are modelled as `Nat` (the quantities involved are line
counts, byte sizes and list offsets, all non-negative in the source).
-/

namespace CodebaseIndexing

/-! ### Line splitting, `text.split(/\r?\n/)` from `chunkByLines` (fsutil.ts:82) -/

/-- Splits a character list on the separators of the regex `/\r?\n/`:
a `"\r\n"` pair or a lone `"\n"` ends a line; a lone `"\r"` does not.
`acc` holds the current line's characters in reverse. -/
def splitLinesAux : List Char → List Char → List String
  | [], acc => [String.mk acc.reverse]
  | '\r' :: '\n' :: rest, acc => String.mk acc.reverse :: splitLinesAux rest []
  | '\n' :: rest, acc => String.mk acc.reverse :: splitLinesAux rest []
  | c :: rest, acc => splitLinesAux rest (c :: acc)

/-- `text.split(/\r?\n/)` (fsutil.ts:82). -/
def splitLines (text : String) : List String :=
  splitLinesAux text.data []

theorem splitLinesAux_ne_nil (l acc : List Char) : splitLinesAux l acc ≠ [] := by
  induction l, acc using splitLinesAux.induct <;> simp_all [splitLinesAux]

theorem splitLines_ne_nil (text : String) : splitLines text ≠ [] :=
  splitLinesAux_ne_nil _ _

/-! ### `chunkByLines` (fsutil.ts:78-98) -/

/-- One chunk emitted by `chunkByLines`: `{ start, end, text }` with a
1-indexed inclusive line range (`end` is a Lean keyword, hence `endLine`). -/
structure Chunk where
  start : Nat
  endLine : Nat
  text : String
deriving DecidableEq, Repr

/-- The `while` loop of `chunkByLines` (fsutil.ts:85-93), embedded with
explicit fuel (the caller passes `lines.length`, which bounds the iteration
count whenever `overlap < maxLines`, since `startLine` strictly increases).
`min lines.length (startLine + maxLines)` is the source's `endLine`;
`min lines.length (startLine + maxLines) - overlap` is the source's
`Math.max(0, endLine - overlap)` (truncated subtraction). -/
def chunkLoop (lines : List String) (maxLines overlap : Nat) : Nat → Nat → List Chunk
  | 0, _ => []
  | fuel + 1, startLine =>
    if startLine < lines.length then
      if min lines.length (startLine + maxLines) = lines.length then
        [⟨startLine + 1, min lines.length (startLine + maxLines),
          String.intercalate "\n"
            ((lines.drop startLine).take (min lines.length (startLine + maxLines) - startLine))⟩]
      else
        ⟨startLine + 1, min lines.length (startLine + maxLines),
          String.intercalate "\n"
            ((lines.drop startLine).take (min lines.length (startLine + maxLines) - startLine))⟩ ::
          chunkLoop lines maxLines overlap fuel (min lines.length (startLine + maxLines) - overlap)
    else []

/-- `chunkByLines` after the parameter guard: split, loop, and the
empty-result fallback chunk `{start: 1, end: 1, text: ''}` (fsutil.ts:82-97). -/
def chunkByLinesCore (text : String) (maxLines overlap : Nat) : List Chunk :=
  if (chunkLoop (splitLines text) maxLines overlap (splitLines text).length 0).isEmpty then
    [⟨1, 1, ""⟩]
  else
    chunkLoop (splitLines text) maxLines overlap (splitLines text).length 0

/-- `chunkByLines(text, maxLines, overlap)` (fsutil.ts:78-98): throws a
configuration error when `overlap >= maxLines`, else returns the chunk list. -/
def chunkByLines (text : String) (maxLines overlap : Nat) : Except String (List Chunk) :=
  if maxLines ≤ overlap then
    Except.error "chunk overlap must be smaller than chunk length"
  else
    Except.ok (chunkByLinesCore text maxLines overlap)

theorem chunkLoop_step_mid (lines : List String) (m o fuel s : Nat)
    (hs : s < lines.length) (hmid : s + m < lines.length) :
    chunkLoop lines m o (fuel + 1) s =
      ⟨s + 1, s + m, String.intercalate "\n" ((lines.drop s).take m)⟩ ::
        chunkLoop lines m o fuel (s + m - o) := by
  have hmin : min lines.length (s + m) = s + m := by omega
  have htake : s + m - s = m := by omega
  simp only [chunkLoop, if_pos hs, hmin, htake]
  rw [if_neg (by omega)]

theorem chunkLoop_step_last (lines : List String) (m o fuel s : Nat)
    (hs : s < lines.length) (hlast : lines.length ≤ s + m) :
    chunkLoop lines m o (fuel + 1) s =
      [⟨s + 1, lines.length,
        String.intercalate "\n" ((lines.drop s).take (lines.length - s))⟩] := by
  have hmin : min lines.length (s + m) = lines.length := by omega
  simp only [chunkLoop, if_pos hs, hmin, if_true, eq_self_iff_true]

/-- Number of lines shared by the inclusive line ranges of two chunks. -/
def overlapLen (c c' : Chunk) : Nat :=
  min c.endLine c'.endLine + 1 - max c.start c'.start

/-- Combined loop invariant of `chunkByLines`' while loop: the emitted list
is nonempty, starts at `s + 1`, ends at the last line, stays inside
`[s + 1, lines.length]`, advances by exactly `overlap` lines of overlap
between consecutive chunks, and covers every line of `[s + 1, lines.length]`. -/
theorem chunkLoop_invariant (lines : List String) (m o : Nat) (ho : o < m) :
    ∀ fuel s, s < lines.length → lines.length ≤ fuel + s →
      chunkLoop lines m o fuel s ≠ [] ∧
      (∀ c, (chunkLoop lines m o fuel s).head? = some c →
        c.start = s + 1 ∧ c.endLine = min lines.length (s + m)) ∧
      (∀ c, (chunkLoop lines m o fuel s).getLast? = some c → c.endLine = lines.length) ∧
      (∀ c ∈ chunkLoop lines m o fuel s,
        s + 1 ≤ c.start ∧ c.start ≤ c.endLine ∧ c.endLine ≤ lines.length) ∧
      (chunkLoop lines m o fuel s).Chain'
        (fun c c' => c'.start = c.endLine + 1 - o ∧ c.start + o ≤ c.endLine ∧
          c.endLine < c'.endLine) ∧
      (∀ k, s + 1 ≤ k → k ≤ lines.length →
        ∃ c ∈ chunkLoop lines m o fuel s, c.start ≤ k ∧ k ≤ c.endLine) := by
  intro fuel
  induction fuel with
  | zero => intro s hs hf; omega
  | succ f ih =>
    intro s hs hf
    by_cases hmid : s + m < lines.length
    · rw [chunkLoop_step_mid lines m o f s hs hmid]
      have hs' : s + m - o < lines.length := by omega
      have hf' : lines.length ≤ f + (s + m - o) := by omega
      obtain ⟨hne, hhead, hlast, hmem, hchain, hcover⟩ := ih (s + m - o) hs' hf'
      refine ⟨by simp, ?_, ?_, ?_, ?_, ?_⟩
      · intro c hc
        simp only [List.head?_cons, Option.some.injEq] at hc
        subst hc
        refine ⟨rfl, ?_⟩
        show s + m = min lines.length (s + m)
        omega
      · intro c hc
        obtain ⟨d, rest, hrest⟩ := List.exists_cons_of_ne_nil hne
        rw [hrest, List.getLast?_cons_cons] at hc
        exact hlast c (hrest ▸ hc)
      · intro c hc
        rcases List.mem_cons.mp hc with h | h
        · subst h
          refine ⟨Nat.le_refl _, ?_, ?_⟩
        -- the literal chunk's projections reduce definitionally under `show`
          · show s + 1 ≤ s + m
            omega
          · show s + m ≤ lines.length
            omega
        · have := hmem c h
          omega
      · rw [List.chain'_cons']
        refine ⟨?_, hchain⟩
        intro b hb
        have hhb := hhead b hb
        show b.start = s + m + 1 - o ∧ s + 1 + o ≤ s + m ∧ s + m < b.endLine
        have hmin : s + m < min lines.length (s + m - o + m) := by omega
        omega
      · intro k hk1 hk2
        by_cases hkle : k ≤ s + m
        · refine ⟨_, List.mem_cons_self _ _, ?_, ?_⟩
          · show s + 1 ≤ k
            omega
          · show k ≤ s + m
            omega
        · obtain ⟨c, hcmem, hcov⟩ := hcover k (by omega) hk2
          exact ⟨c, List.mem_cons_of_mem _ hcmem, hcov⟩
    · rw [chunkLoop_step_last lines m o f s hs (by omega)]
      refine ⟨by simp, ?_, ?_, ?_, ?_, ?_⟩
      · intro c hc
        simp only [List.head?_cons, Option.some.injEq] at hc
        subst hc
        refine ⟨rfl, ?_⟩
        show lines.length = min lines.length (s + m)
        omega
      · intro c hc
        simp only [List.getLast?_singleton, Option.some.injEq] at hc
        subst hc
        rfl
      · intro c hc
        simp only [List.mem_singleton] at hc
        subst hc
        refine ⟨Nat.le_refl _, ?_, Nat.le_refl _⟩
        show s + 1 ≤ lines.length
        omega
      · simp
      · intro k hk1 hk2
        exact ⟨_, List.mem_singleton_self _, hk1, hk2⟩

theorem chunkByLinesCore_eq_loop (text : String) (m o : Nat) :
    chunkByLinesCore text m o =
      chunkLoop (splitLines text) m o (splitLines text).length 0 := by
  have hlen : 0 < (splitLines text).length :=
    List.length_pos.mpr (splitLines_ne_nil text)
  rcases h : chunkLoop (splitLines text) m o (splitLines text).length 0 with _ | ⟨c, cs⟩
  · rcases hl : splitLines text with _ | ⟨l, ls⟩
    · exact absurd hl (splitLines_ne_nil text)
    · exfalso
      rw [hl] at h
      have h1 : 0 < (l :: ls).length := by simp
      rcases Nat.lt_or_ge ((0 : Nat) + m) (l :: ls).length with hm | hm
      · rcases hfl : (l :: ls).length with _ | f
        · simp at hfl
        · rw [hfl, chunkLoop_step_mid (l :: ls) m o f 0 h1 hm] at h
          simp at h
      · rcases hfl : (l :: ls).length with _ | f
        · simp at hfl
        · rw [hfl, chunkLoop_step_last (l :: ls) m o f 0 h1 hm] at h
          simp at h
  · rw [chunkByLinesCore, h]
    simp

/-- **C2.** For every text and every `(maxLines, overlap)` with
`overlap < maxLines`, `chunkByLines` succeeds, the union of the emitted
`[start, end]` line ranges is exactly `[1, totalLines]` (no gaps), and every
pair of consecutive chunks — the final pair included — overlaps by exactly
`overlap` lines (so in particular every non-final pair overlaps by exactly
`overlap`, and the final pair by at most `overlap`, as the claim states). -/
theorem chunkByLines_coverage (text : String) (maxLines overlap : Nat)
    (hov : overlap < maxLines) :
    ∃ cs, chunkByLines text maxLines overlap = Except.ok cs ∧
      (∀ k, (1 ≤ k ∧ k ≤ (splitLines text).length) ↔
        ∃ c ∈ cs, c.start ≤ k ∧ k ≤ c.endLine) ∧
      (∀ i, (h : i + 1 < cs.length) →
        overlapLen (cs.get ⟨i, by omega⟩) (cs.get ⟨i + 1, h⟩) = overlap) := by
  have hlen : 0 < (splitLines text).length :=
    List.length_pos.mpr (splitLines_ne_nil text)
  obtain ⟨hne, hhead, hlast, hmem, hchain, hcover⟩ :=
    chunkLoop_invariant (splitLines text) maxLines overlap hov
      (splitLines text).length 0 hlen (by omega)
  refine ⟨chunkLoop (splitLines text) maxLines overlap (splitLines text).length 0,
    ?_, ?_, ?_⟩
  · rw [chunkByLines, if_neg (by omega), chunkByLinesCore_eq_loop]
  · intro k
    constructor
    · rintro ⟨hk1, hk2⟩
      exact hcover k hk1 hk2
    · rintro ⟨c, hc, h1, h2⟩
      have := hmem c hc
      omega
  · intro i h
    have hrel := List.chain'_iff_get.mp hchain i (by omega)
    obtain ⟨ha, hb, hc'⟩ := hrel
    rw [overlapLen]
    omega

/-- **C2 witness.** -/
theorem chunkByLines_coverage_witness :
    1 < 2 ∧
    (∃ cs, chunkByLines "a\nb\nc" 2 1 = Except.ok cs ∧
      (∀ k, (1 ≤ k ∧ k ≤ (splitLines "a\nb\nc").length) ↔
        ∃ c ∈ cs, c.start ≤ k ∧ k ≤ c.endLine) ∧
      (∀ i, (h : i + 1 < cs.length) →
        overlapLen (cs.get ⟨i, by omega⟩) (cs.get ⟨i + 1, h⟩) = 1)) :=
  ⟨by omega, chunkByLines_coverage "a\nb\nc" 2 1 (by omega)⟩

/-- **C7.** `chunkByLines` fails with the configuration error exactly when
`overlap ≥ maxLines`, and succeeds exactly when `overlap < maxLines`. -/
theorem chunkByLines_config_guard (text : String) (maxLines overlap : Nat) :
    ((∃ e, chunkByLines text maxLines overlap = Except.error e) ↔
      maxLines ≤ overlap) ∧
    ((∃ cs, chunkByLines text maxLines overlap = Except.ok cs) ↔
      overlap < maxLines) := by
  by_cases h : maxLines ≤ overlap
  · rw [chunkByLines, if_pos h]
    constructor
    · simp [h]
    · constructor
      · rintro ⟨cs, hcs⟩
        cases hcs
      · omega
  · rw [chunkByLines, if_neg h]
    constructor
    · constructor
      · rintro ⟨e, he⟩
        cases he
      · omega
    · exact ⟨fun _ => by omega, fun _ => ⟨_, rfl⟩⟩

/-- **C7 witness.** -/
theorem chunkByLines_config_guard_witness :
    ((∃ e, chunkByLines "x" 3 5 = Except.error e) ↔ (3 : Nat) ≤ 5) ∧
    ((∃ cs, chunkByLines "x" 3 5 = Except.ok cs) ↔ 5 < 3) :=
  chunkByLines_config_guard "x" 3 5

/-- **C8.** For the empty input text and any valid `(maxLines, overlap)`,
`chunkByLines` returns exactly one chunk with `start = end = 1` and empty
text. -/
theorem chunkByLines_empty_text (maxLines overlap : Nat) (hov : overlap < maxLines) :
    chunkByLines "" maxLines overlap = Except.ok [⟨1, 1, ""⟩] := by
  have hsplit : splitLines "" = [""] := rfl
  rw [chunkByLines, if_neg (by omega), chunkByLinesCore_eq_loop, hsplit]
  have hstep := chunkLoop_step_last [""] maxLines overlap 0 0 (by simp)
    (by simp; omega)
  simp only [List.length_singleton] at hstep ⊢
  rw [hstep]
  have : String.intercalate "\n" [""] = "" := rfl
  simp [this]

/-- **C8 witness.** -/
theorem chunkByLines_empty_text_witness :
    30 < 150 ∧ chunkByLines "" 150 30 = Except.ok [⟨1, 1, ""⟩] :=
  ⟨by omega, chunkByLines_empty_text 150 30 (by omega)⟩

/-- **C9.** For every text of exactly 10 lines, `chunkByLines` with
`maxLines = 4, overlap = 1` emits exactly the chunks with line ranges
`(1,4), (4,7), (7,10)`, in that order. -/
theorem chunkByLines_ten_lines (text : String)
    (h : (splitLines text).length = 10) :
    ∃ cs, chunkByLines text 4 1 = Except.ok cs ∧
      cs.map (fun c => (c.start, c.endLine)) = [(1, 4), (4, 7), (7, 10)] := by
  have e1 := chunkLoop_step_mid (splitLines text) 4 1 9 0 (by omega) (by omega)
  have e2 := chunkLoop_step_mid (splitLines text) 4 1 8 3 (by omega) (by omega)
  have e3 := chunkLoop_step_last (splitLines text) 4 1 7 6 (by omega) (by omega)
  norm_num at e1 e2 e3
  refine ⟨chunkByLinesCore text 4 1, ?_, ?_⟩
  · rw [chunkByLines, if_neg (by omega)]
  · rw [chunkByLinesCore_eq_loop, h, e1, e2, e3]
    simp [h]

/-- **C9 witness.** -/
theorem chunkByLines_ten_lines_witness :
    (splitLines "1\n2\n3\n4\n5\n6\n7\n8\n9\n10").length = 10 ∧
    (∃ cs, chunkByLines "1\n2\n3\n4\n5\n6\n7\n8\n9\n10" 4 1 = Except.ok cs ∧
      cs.map (fun c => (c.start, c.endLine)) = [(1, 4), (4, 7), (7, 10)]) :=
  ⟨by decide, chunkByLines_ten_lines "1\n2\n3\n4\n5\n6\n7\n8\n9\n10" (by decide)⟩

/-! ### `buildDocumentId` (indexer.ts:21-23) and `sha256` (fsutil.ts:9-11)

`sha256` delegates to node:crypto; it is modelled as an abstract function
parameter `hash`.  The string the source interpolates and hashes is embedded
exactly (`Nat.repr` is decimal printing, as JS template interpolation of a
non-negative integer). -/

/-- The string hashed by `buildDocumentId`:
`` `${filePath}:${start}:${end}:${fileHash}` `` (indexer.ts:22).
`end` is a Lean keyword, hence the parameter name `stop`. -/
def documentKey (filePath : String) (start stop : Nat) (fileHash : String) : String :=
  filePath ++ ":" ++ Nat.repr start ++ ":" ++ Nat.repr stop ++ ":" ++ fileHash

/-- `buildDocumentId(filePath, start, end, fileHash)` (indexer.ts:21-23). -/
def buildDocumentId (hash : String → String) (filePath : String) (start stop : Nat)
    (fileHash : String) : String :=
  hash (documentKey filePath start stop fileHash)

theorem string_data_append (s t : String) : (s ++ t).data = s.data ++ t.data := by
  cases s
  cases t
  rfl

theorem string_data_inj {s t : String} (h : s.data = t.data) : s = t := by
  cases s
  cases t
  exact congrArg String.mk h

theorem toDigitsCore_acc (b : Nat) :
    ∀ (fuel n : Nat) (ds : List Char),
      Nat.toDigitsCore b fuel n ds = Nat.toDigitsCore b fuel n [] ++ ds := by
  intro fuel
  induction fuel with
  | zero => intro n ds; rfl
  | succ f ih =>
    intro n ds
    by_cases h : n / b = 0
    · simp [Nat.toDigitsCore, h]
    · simp only [Nat.toDigitsCore]
      rw [if_neg h, if_neg h, ih (n / b) (Nat.digitChar (n % b) :: ds),
        ih (n / b) [Nat.digitChar (n % b)]]
      simp

/-- Decimal value of a digit-character list (inverse of `Nat.toDigitsCore`). -/
def digitsVal (l : List Char) : Nat :=
  l.foldl (fun a c => 10 * a + (c.toNat - 48)) 0

theorem digitsVal_append_singleton (l : List Char) (c : Char) :
    digitsVal (l ++ [c]) = 10 * digitsVal l + (c.toNat - 48) := by
  simp [digitsVal, List.foldl_append]

theorem digitsVal_toDigitsCore :
    ∀ fuel n, n < fuel → digitsVal (Nat.toDigitsCore 10 fuel n []) = n := by
  intro fuel
  induction fuel with
  | zero => intro n h; omega
  | succ f ih =>
    intro n h
    by_cases h0 : n / 10 = 0
    · have hn : n < 10 := by omega
      have hmod : n % 10 = n := by omega
      have hd : ∀ k, k < 10 → digitsVal [Nat.digitChar k] = k := by decide
      simp only [Nat.toDigitsCore, if_pos h0, hmod]
      exact hd n hn
    · simp only [Nat.toDigitsCore]
      rw [if_neg h0, toDigitsCore_acc, digitsVal_append_singleton, ih (n / 10) (by omega)]
      have hd2 : ∀ k, k < 10 → (Nat.digitChar k).toNat - 48 = k := by decide
      rw [hd2 (n % 10) (by omega)]
      omega

theorem natRepr_inj (m n : Nat) (h : Nat.repr m = Nat.repr n) : m = n := by
  have hdata : Nat.toDigitsCore 10 (m + 1) m [] = Nat.toDigitsCore 10 (n + 1) n [] := by
    have := congrArg String.data h
    simpa [Nat.repr, Nat.toDigits, List.asString] using this
  have hm := digitsVal_toDigitsCore (m + 1) m (by omega)
  have hn := digitsVal_toDigitsCore (n + 1) n (by omega)
  rw [hdata, hn] at hm
  exact hm.symm

theorem colon_not_mem_toDigitsCore :
    ∀ fuel n (ds : List Char), (':' : Char) ∉ ds →
      (':' : Char) ∉ Nat.toDigitsCore 10 fuel n ds := by
  have hd : ∀ k, k < 10 → Nat.digitChar k ≠ ':' := by decide
  intro fuel
  induction fuel with
  | zero => intro n ds h; exact h
  | succ f ih =>
    intro n ds h
    have hcons : (':' : Char) ∉ Nat.digitChar (n % 10) :: ds := by
      intro hmem
      rcases List.mem_cons.mp hmem with h' | h'
      · exact hd (n % 10) (by omega) h'.symm
      · exact h h'
    by_cases h0 : n / 10 = 0
    · simp only [Nat.toDigitsCore, if_pos h0]
      exact hcons
    · simp only [Nat.toDigitsCore]
      rw [if_neg h0]
      exact ih (n / 10) _ hcons

theorem colon_not_mem_repr (n : Nat) : (':' : Char) ∉ (Nat.repr n).data := by
  have hd : (Nat.repr n).data = Nat.toDigitsCore 10 (n + 1) n [] := rfl
  rw [hd]
  exact colon_not_mem_toDigitsCore (n + 1) n [] (by simp)

theorem colon_split :
    ∀ (a₁ a₂ m₁ m₂ : List Char), (':' : Char) ∉ a₁ → (':' : Char) ∉ a₂ →
      a₁ ++ ':' :: m₁ = a₂ ++ ':' :: m₂ → a₁ = a₂ ∧ m₁ = m₂ := by
  intro a₁
  induction a₁ with
  | nil =>
    intro a₂ m₁ m₂ _ h2 heq
    cases a₂ with
    | nil => simpa using heq
    | cons c rest =>
      simp only [List.nil_append, List.cons_append, List.cons.injEq] at heq
      exact absurd (heq.1 ▸ List.mem_cons_self c rest) h2
  | cons c rest ih =>
    intro a₂ m₁ m₂ h1 h2 heq
    cases a₂ with
    | nil =>
      simp only [List.nil_append, List.cons_append, List.cons.injEq] at heq
      exact absurd (heq.1 ▸ List.mem_cons_self c rest) h1
    | cons c' rest' =>
      simp only [List.cons_append, List.cons.injEq] at heq
      have hrec := ih rest' m₁ m₂ (fun hm => h1 (List.mem_cons_of_mem _ hm))
        (fun hm => h2 (List.mem_cons_of_mem _ hm)) heq.2
      exact ⟨by rw [heq.1, hrec.1], hrec.2⟩

theorem documentKey_data (p h : String) (s e : Nat) :
    (documentKey p s e h).data =
      p.data ++ ':' :: ((Nat.repr s).data ++ ':' :: ((Nat.repr e).data ++ ':' :: h.data)) := by
  have hcolon : (":" : String).data = [':'] := rfl
  simp [documentKey, string_data_append, hcolon]

theorem documentKey_inj (p₁ p₂ h₁ h₂ : String) (s₁ e₁ s₂ e₂ : Nat)
    (hp₁ : (':' : Char) ∉ p₁.data) (hp₂ : (':' : Char) ∉ p₂.data)
    (heq : documentKey p₁ s₁ e₁ h₁ = documentKey p₂ s₂ e₂ h₂) :
    p₁ = p₂ ∧ s₁ = s₂ ∧ e₁ = e₂ ∧ h₁ = h₂ := by
  have hdata := congrArg String.data heq
  rw [documentKey_data, documentKey_data] at hdata
  obtain ⟨hp, hrest⟩ := colon_split _ _ _ _ hp₁ hp₂ hdata
  obtain ⟨hs, hrest2⟩ := colon_split _ _ _ _ (colon_not_mem_repr s₁)
    (colon_not_mem_repr s₂) hrest
  obtain ⟨he, hh⟩ := colon_split _ _ _ _ (colon_not_mem_repr e₁)
    (colon_not_mem_repr e₂) hrest2
  exact ⟨string_data_inj hp, natRepr_inj _ _ (string_data_inj hs),
    natRepr_inj _ _ (string_data_inj he), string_data_inj hh⟩

/-- **C1 counterexample.** Two input tuples that differ (in `filePath` and
`fileHash`) yet produce the identical pre-hash key — hence the identical
document id, whatever function the hash is (exhibited with the identity
hash; the key equality is hash-independent). The claim's injectivity half is
therefore false as stated. -/
theorem documentId_collision :
    ("a:0" ≠ ("a" : String) ∧ ("h" : String) ≠ "0:h") ∧
    documentKey "a:0" 0 0 "h" = documentKey "a" 0 0 "0:h" ∧
    buildDocumentId (fun s => s) "a:0" 0 0 "h" =
      buildDocumentId (fun s => s) "a" 0 0 "0:h" := by
  refine ⟨by decide, by decide, by decide⟩

/-- **C1 amended.** `buildDocumentId` is a pure, total function: equal
inputs give equal ids (the right-to-left direction). Provided neither
`filePath` contains the `':'` separator character, distinct input tuples
give distinct pre-hash keys (the numeric bounds print canonically and the
`fileHash` is recovered as the remainder of the key), hence distinct ids
whenever the hash does not collide on the keys — formally, for every
injective `hash`, id equality holds exactly for equal input tuples.
Without the colon-free proviso on the paths the injectivity half fails
(`documentId_collision`). -/
theorem documentId_amended (hash : String → String) (hinj : Function.Injective hash)
    (p₁ p₂ h₁ h₂ : String) (s₁ e₁ s₂ e₂ : Nat)
    (hp₁ : (':' : Char) ∉ p₁.data) (hp₂ : (':' : Char) ∉ p₂.data) :
    buildDocumentId hash p₁ s₁ e₁ h₁ = buildDocumentId hash p₂ s₂ e₂ h₂ ↔
      (p₁ = p₂ ∧ s₁ = s₂ ∧ e₁ = e₂ ∧ h₁ = h₂) := by
  constructor
  · intro heq
    exact documentKey_inj p₁ p₂ h₁ h₂ s₁ e₁ s₂ e₂ hp₁ hp₂ (hinj heq)
  · rintro ⟨rfl, rfl, rfl, rfl⟩
    rfl

/-- **C1 witness.** -/
theorem documentId_amended_witness :
    ((':' : Char) ∉ ("a" : String).data) ∧
    (buildDocumentId (fun s => s) "a" 1 2 "beef" =
        buildDocumentId (fun s => s) "b" 1 2 "beef" ↔
      (("a" : String) = "b" ∧ (1 : Nat) = 1 ∧ (2 : Nat) = 2 ∧
        ("beef" : String) = "beef")) :=
  ⟨by decide, documentId_amended (fun s => s) (fun _ _ hab => hab) "a" "b" "beef" "beef"
    1 2 1 2 (by decide) (by decide)⟩

/-! ### File filters (fsutil.ts:50-72) and indexer configuration defaults -/

/-- `CODE_EXTENSIONS` (fsutil.ts:50-55). -/
def codeExtensions : List String :=
  ["ts", "tsx", "js", "jsx", "mjs", "cjs",
   "json", "md", "mdx", "yml", "yaml", "toml", "ini",
   "go", "rs", "py", "java", "kt", "c", "cc", "cpp", "cxx", "h", "hpp",
   "cs", "rb", "php", "sql", "sh", "ps1", "bat", "swift"]

/-- `rel.split('.')` from `shouldIndex` (fsutil.ts:58), over the character
list; `acc` holds the current component in reverse. -/
def splitDotAux : List Char → List Char → List String
  | [], acc => [String.mk acc.reverse]
  | '.' :: rest, acc => String.mk acc.reverse :: splitDotAux rest []
  | c :: rest, acc => splitDotAux rest (c :: acc)

/-- `toLowerCase()` (fsutil.ts:58) restricted to ASCII — the allow-list
entries are all ASCII, so case only matters there. -/
def toLowerStr (s : String) : String :=
  String.mk (s.data.map Char.toLower)

/-- `shouldIndex(rel)` (fsutil.ts:57-60): the lowercased last `'.'`-separated
component must be nonempty and in the allow-list (`split('.')` never returns
an empty array, so `pop()` is the last component; `!!ext` rejects `''`). -/
def shouldIndex (rel : String) : Bool :=
  toLowerStr ((splitDotAux rel.data []).getLastD "") ≠ "" &&
    codeExtensions.contains (toLowerStr ((splitDotAux rel.data []).getLastD ""))

/-- `MAX_FILE_BYTES` (fsutil.ts:6), at its default (`RAG_MAX_FILE_BYTES`
unset): 2 000 000 bytes. -/
def MAX_FILE_BYTES : Nat := 2000000

/-- `withinSizeLimit` (fsutil.ts:62-72): `stats.size <= MAX_FILE_BYTES`
(the `ENOENT → false` branch is the caller-supplied size's concern). -/
def withinSizeLimit (size : Nat) : Bool :=
  decide (size ≤ MAX_FILE_BYTES)

/-- `CHUNK_LINES` (indexer.ts:18) at its default. -/
def CHUNK_LINES : Nat := 150

/-- `CHUNK_OVERLAP` (indexer.ts:19) at its default. -/
def CHUNK_OVERLAP : Nat := 30

/-! ### The index store and the indexer (indexer.ts, meili.ts)

Network effects against the Meilisearch index are modelled as explicit
state passing over the list of stored documents: `deleteByFilePath`
(meili.ts:188-199) removes the documents whose `filePath` equals the given
path, and document addition (meili.ts:169-186) upserts by primary key `id`.
The embedding vectors (`_vectors`) are float arrays and are not modelled;
all other document fields are. File reads and the embedding backend are
modelled by a `FileEnv` environment value: `within` is the
`withinSizeLimit` answer, and `content` is the file content when the
read-and-embed pipeline of `documentsForFile` succeeds, or an error when
any part of it fails. -/

/-- The document shape persisted per chunk (indexer.ts:30-37), minus the
unmodelled float vector. -/
structure Doc where
  id : String
  filePath : String
  startLine : Nat
  endLine : Nat
  content : String
deriving DecidableEq, Repr

/-- Environment outcome for processing one file. -/
structure FileEnv where
  within : Bool
  content : Except Unit String
deriving Repr

/-- Store effect of `deleteByFilePath(rel)` (meili.ts:188-199). -/
def deleteByFilePath (rel : String) (σ : List Doc) : List Doc :=
  σ.filter (fun d => !(d.filePath == rel))

/-- Store effect of adding documents (meili.ts:169-186): Meilisearch
upserts by the primary key `id`. -/
def storeUpsert (docs : List Doc) (σ : List Doc) : List Doc :=
  σ.filter (fun d => docs.all (fun e => !(e.id == d.id))) ++ docs

/-- `documentsForFile(rel, full)` (indexer.ts:25-38): chunk the content with
the configured `(CHUNK_LINES, CHUNK_OVERLAP)` (a valid pair, so
`chunkByLines` cannot throw and equals `chunkByLinesCore`), hash the whole
file, and build one document per chunk. -/
def documentsForFile (hash : String → String) (rel content : String) : List Doc :=
  (chunkByLinesCore content CHUNK_LINES CHUNK_OVERLAP).map fun c =>
    ⟨buildDocumentId hash rel c.start c.endLine (hash content),
      rel, c.start, c.endLine, c.text⟩

/-- `reindexFile(rel, full)` (indexer.ts:40-58), returning the new store
and the returned chunk count: oversized → delete only; otherwise delete
first, then read-and-embed — a failure there is caught and returns `0`
with the delete already applied; otherwise insert the fresh documents. -/
def reindexFile (hash : String → String) (env : FileEnv) (rel : String)
    (σ : List Doc) : List Doc × Nat :=
  if env.within = false then (deleteByFilePath rel σ, 0)
  else
    match env.content with
    | Except.error _ => (deleteByFilePath rel σ, 0)
    | Except.ok content =>
      if (documentsForFile hash rel content).isEmpty then (deleteByFilePath rel σ, 0)
      else (storeUpsert (documentsForFile hash rel content) (deleteByFilePath rel σ),
        (documentsForFile hash rel content).length)

/-- One file of the repository snapshot seen by a rebuild pass. -/
structure RepoFile where
  rel : String
  env : FileEnv
deriving Repr

/-- `rebuildRepository()` (indexer.ts:60-87) over a snapshot of candidate
files (the `walk` output), returning the final store and the
`{files, chunks}` counters. Per file: extension filter, size guard with
delete, then read-and-embed (errors caught, leaving the store untouched —
the delete comes *after* `documentsForFile` here, unlike `reindexFile`),
delete-then-insert, and counter updates. -/
def rebuildRepository (hash : String → String) (files : List RepoFile)
    (σ : List Doc) : List Doc × Nat × Nat :=
  files.foldl
    (fun acc f =>
      if shouldIndex f.rel = false then acc
      else if f.env.within = false then (deleteByFilePath f.rel acc.1, acc.2)
      else
        match f.env.content with
        | Except.error _ => acc
        | Except.ok content =>
          if (documentsForFile hash f.rel content).isEmpty then
            (deleteByFilePath f.rel acc.1, acc.2)
          else
            (storeUpsert (documentsForFile hash f.rel content)
                (deleteByFilePath f.rel acc.1),
              acc.2.1 + 1, acc.2.2 + (documentsForFile hash f.rel content).length))
    (σ, 0, 0)

/-! ### The watch-mode change queue (indexer.ts:98-163)

The promise chain `queue = queue.then(task).catch(log)` (indexer.ts:103-109)
runs the enqueued tasks strictly one at a time, in enqueue order, and a
failed task does not halt the queue. It is modelled as a sequential fold of
the task list over the store state; `tasksOfEvent` is the wiring of the
`add` / `change` / `unlink` handlers (indexer.ts:126-162). -/

/-- A task sitting in the change queue. -/
inductive WatchTask where
  | reindexT (rel : String) (env : FileEnv)
  | removeT (rel : String)
  | refreshT (repo : List RepoFile)
deriving Repr

/-- A filesystem event delivered by the watcher, with the environment the
enqueued task will observe when it runs. -/
inductive FsEvent where
  | add (rel : String) (env : FileEnv)
  | change (rel : String) (env : FileEnv) (repo : List RepoFile)
  | unlink (rel : String)
deriving Repr

/-- What each watcher callback enqueues (indexer.ts:126-162): `add` and
`change` enqueue a reindex only for extension-eligible paths, a `change` of
a recognized ignore-rule file enqueues a full rebuild, and `unlink`
enqueues a delete unconditionally. -/
def tasksOfEvent : FsEvent → List WatchTask
  | FsEvent.add rel env =>
    if shouldIndex rel then [WatchTask.reindexT rel env] else []
  | FsEvent.change rel env repo =>
    if rel == ".gitignore" || rel == ".ragignore" then [WatchTask.refreshT repo]
    else if shouldIndex rel then [WatchTask.reindexT rel env] else []
  | FsEvent.unlink rel => [WatchTask.removeT rel]

/-- Store effect of one task. -/
def runTask (hash : String → String) (σ : List Doc) : WatchTask → List Doc
  | WatchTask.reindexT rel env => (reindexFile hash env rel σ).1
  | WatchTask.removeT rel => deleteByFilePath rel σ
  | WatchTask.refreshT repo => (rebuildRepository hash repo σ).1

/-- The drained queue: tasks execute one at a time, head first. -/
def runQueue (hash : String → String) : List WatchTask → List Doc → List Doc
  | [], σ => σ
  | t :: ts, σ => runQueue hash ts (runTask hash σ t)

/-- The tasks enqueued for a delivered event sequence, in delivery order. -/
def watchTasks (events : List FsEvent) : List WatchTask :=
  events.flatMap tasksOfEvent

theorem deleteByFilePath_not_mem (rel : String) (σ : List Doc) :
    ∀ d ∈ deleteByFilePath rel σ, d.filePath ≠ rel := by
  intro d hd
  have := List.of_mem_filter hd
  simpa using this

theorem runQueue_append (hash : String → String) (ts₁ ts₂ : List WatchTask)
    (σ : List Doc) :
    runQueue hash (ts₁ ++ ts₂) σ = runQueue hash ts₂ (runQueue hash ts₁ σ) := by
  induction ts₁ generalizing σ with
  | nil => rfl
  | cons t ts ih => simp [runQueue, ih]

/-- **C3.** In the change queue, for every event sequence in which an `add`
of path `p` is later followed by an `unlink` of `p` — both enqueued before
the queue drains, i.e. the `unlink` is the final enqueued event — the tasks
are enqueued in event order and run strictly one at a time in that order
(`runQueue` composes sequentially over concatenation), and after the queue
drains the index holds zero documents for `p`. -/
theorem queue_create_then_delete (hash : String → String) (p : String) (env : FileEnv)
    (es₁ es₂ events : List FsEvent) (σ : List Doc)
    (hev : events = es₁ ++ FsEvent.add p env :: (es₂ ++ [FsEvent.unlink p])) :
    watchTasks events =
      watchTasks es₁ ++ (tasksOfEvent (FsEvent.add p env) ++
        (watchTasks es₂ ++ [WatchTask.removeT p])) ∧
    (∀ (ts₁ ts₂ : List WatchTask) (σ' : List Doc),
      runQueue hash (ts₁ ++ ts₂) σ' = runQueue hash ts₂ (runQueue hash ts₁ σ')) ∧
    ∀ d ∈ runQueue hash (watchTasks events) σ, d.filePath ≠ p := by
  subst hev
  have hsplit : watchTasks (es₁ ++ FsEvent.add p env :: (es₂ ++ [FsEvent.unlink p])) =
      watchTasks es₁ ++ (tasksOfEvent (FsEvent.add p env) ++
        (watchTasks es₂ ++ [WatchTask.removeT p])) := by
    simp [watchTasks, tasksOfEvent]
  refine ⟨hsplit, fun ts₁ ts₂ σ' => runQueue_append hash ts₁ ts₂ σ', ?_⟩
  rw [hsplit]
  have hassoc : watchTasks es₁ ++ (tasksOfEvent (FsEvent.add p env) ++
        (watchTasks es₂ ++ [WatchTask.removeT p])) =
      (watchTasks es₁ ++ tasksOfEvent (FsEvent.add p env) ++ watchTasks es₂) ++
        [WatchTask.removeT p] := by
    simp [List.append_assoc]
  rw [hassoc, runQueue_append]
  exact deleteByFilePath_not_mem p _

/-- **C3 witness.** -/
theorem queue_create_then_delete_witness :
    ([FsEvent.add "a.ts" ⟨true, Except.ok "x"⟩, FsEvent.unlink "a.ts"] =
      [] ++ FsEvent.add "a.ts" ⟨true, Except.ok "x"⟩ :: ([] ++ [FsEvent.unlink "a.ts"])) ∧
    (watchTasks [FsEvent.add "a.ts" ⟨true, Except.ok "x"⟩, FsEvent.unlink "a.ts"] =
      watchTasks [] ++ (tasksOfEvent (FsEvent.add "a.ts" ⟨true, Except.ok "x"⟩) ++
        (watchTasks [] ++ [WatchTask.removeT "a.ts"])) ∧
    (∀ (ts₁ ts₂ : List WatchTask) (σ' : List Doc),
      runQueue (fun s => s) (ts₁ ++ ts₂) σ' =
        runQueue (fun s => s) ts₂ (runQueue (fun s => s) ts₁ σ')) ∧
    ∀ d ∈ runQueue (fun s => s)
        (watchTasks [FsEvent.add "a.ts" ⟨true, Except.ok "x"⟩, FsEvent.unlink "a.ts"]) [],
      d.filePath ≠ "a.ts") :=
  ⟨rfl, queue_create_then_delete (fun s => s) "a.ts" ⟨true, Except.ok "x"⟩ [] [] _ [] rfl⟩

/-- **C4.** A file whose byte size exceeds the ceiling produces zero
documents and the processing pass — `reindexFile` in watch mode, or the
per-file step of a rebuild pass — issues the delete of the path's
previously stored documents (the resulting store is exactly
`deleteByFilePath` of the previous store, not the untouched previous
store), leaving no documents for that path. -/
theorem oversized_file_deleted (hash : String → String) (c : Except Unit String)
    (rel : String) (σ : List Doc) (size : Nat)
    (hsize : MAX_FILE_BYTES < size) (hidx : shouldIndex rel = true) :
    reindexFile hash ⟨withinSizeLimit size, c⟩ rel σ = (deleteByFilePath rel σ, 0) ∧
    rebuildRepository hash [⟨rel, ⟨withinSizeLimit size, c⟩⟩] σ =
      (deleteByFilePath rel σ, 0, 0) ∧
    (∀ d ∈ (reindexFile hash ⟨withinSizeLimit size, c⟩ rel σ).1, d.filePath ≠ rel) ∧
    (∀ d ∈ (rebuildRepository hash [⟨rel, ⟨withinSizeLimit size, c⟩⟩] σ).1,
      d.filePath ≠ rel) := by
  have hw : withinSizeLimit size = false := by
    simp only [withinSizeLimit, decide_eq_false_iff_not]
    omega
  have h1 : reindexFile hash ⟨withinSizeLimit size, c⟩ rel σ =
      (deleteByFilePath rel σ, 0) := by
    simp [reindexFile, hw]
  have h2 : rebuildRepository hash [⟨rel, ⟨withinSizeLimit size, c⟩⟩] σ =
      (deleteByFilePath rel σ, 0, 0) := by
    simp [rebuildRepository, hidx, hw]
  refine ⟨h1, h2, ?_, ?_⟩
  · rw [h1]
    exact deleteByFilePath_not_mem rel σ
  · rw [h2]
    exact deleteByFilePath_not_mem rel σ

/-- **C4 witness.** -/
theorem oversized_file_deleted_witness :
    MAX_FILE_BYTES < 2000001 ∧ shouldIndex "a.ts" = true ∧
    (reindexFile (fun s => s) ⟨withinSizeLimit 2000001, Except.error ()⟩ "a.ts" [] =
      (deleteByFilePath "a.ts" [], 0) ∧
    rebuildRepository (fun s => s) [⟨"a.ts", ⟨withinSizeLimit 2000001, Except.error ()⟩⟩] [] =
      (deleteByFilePath "a.ts" [], 0, 0) ∧
    (∀ d ∈ (reindexFile (fun s => s) ⟨withinSizeLimit 2000001, Except.error ()⟩ "a.ts" []).1,
      d.filePath ≠ "a.ts") ∧
    (∀ d ∈ (rebuildRepository (fun s => s)
        [⟨"a.ts", ⟨withinSizeLimit 2000001, Except.error ()⟩⟩] []).1,
      d.filePath ≠ "a.ts")) :=
  ⟨by decide, by decide,
    oversized_file_deleted (fun s => s) (Except.error ()) "a.ts" [] 2000001
      (by decide) (by decide)⟩

/-- **C10.** In watch-mode `reindexFile` the delete of the path's existing
documents is issued before the file is read and embedded; hence for a file
within the size limit whose read-and-embed pipeline fails, the call returns
`0` without re-raising (the model returns normally, as the source catches
the error), and the resulting store is exactly the deleted one: the old
documents are gone, none are inserted, and the prior state is not
restored. -/
theorem reindexFile_failure_leaves_deleted (hash : String → String) (rel : String)
    (σ : List Doc) :
    reindexFile hash ⟨true, Except.error ()⟩ rel σ = (deleteByFilePath rel σ, 0) ∧
    ∀ d ∈ (reindexFile hash ⟨true, Except.error ()⟩ rel σ).1, d.filePath ≠ rel := by
  have h1 : reindexFile hash ⟨true, Except.error ()⟩ rel σ =
      (deleteByFilePath rel σ, 0) := by
    simp [reindexFile]
  refine ⟨h1, ?_⟩
  rw [h1]
  exact deleteByFilePath_not_mem rel σ

/-! ### `addDocuments` (meili.ts:169-186)

The batching loop `for (i = 0; i < docs.length; i += batchSize)` posts
`docs.slice(i, i + batchSize)` per iteration and throws
`` `Failed to add documents: ${status} ${body}` `` on the first non-ok
response. The network is modelled as a function `send` from the batch
offset `i` and the batch to the response; the embedding returns the list
of batches actually posted (in posting order, the failing one included)
together with the thrown error, if any. Fuel (`docs.length`) bounds the
loop, which advances by `batchSize ≥ 1` elements per iteration. -/

/-- The part of a fetch response the source inspects. -/
structure FetchResponse where
  ok : Bool
  status : Nat
  body : String
deriving DecidableEq, Repr

/-- The batching loop of `addDocuments` (meili.ts:174-185). -/
def addDocumentsGo (send : Nat → List Doc → FetchResponse) (bs : Nat) :
    Nat → Nat → List Doc → List (List Doc) × Option String
  | _, _, [] => ([], none)
  | 0, _, _ :: _ => ([], none)
  | fuel + 1, i, d :: ds =>
    if (send i ((d :: ds).take bs)).ok then
      ((d :: ds).take bs :: (addDocumentsGo send bs fuel (i + bs) ((d :: ds).drop bs)).1,
        (addDocumentsGo send bs fuel (i + bs) ((d :: ds).drop bs)).2)
    else
      ([(d :: ds).take bs],
        some ("Failed to add documents: " ++ Nat.repr (send i ((d :: ds).take bs)).status ++
          " " ++ (send i ((d :: ds).take bs)).body))

/-- `addDocuments(docs, batchSize)` (meili.ts:169-186): early return on an
empty input, else the batching loop from offset `0`. -/
def addDocuments (send : Nat → List Doc → FetchResponse) (docs : List Doc)
    (bs : Nat) : List (List Doc) × Option String :=
  if docs.isEmpty then ([], none) else addDocumentsGo send bs docs.length 0 docs

theorem addDocumentsGo_spec (send : Nat → List Doc → FetchResponse) (bs : Nat)
    (hbs : 0 < bs) :
    ∀ fuel (docs : List Doc) (i : Nat), docs.length ≤ fuel →
      (∀ j, (hj : j < (addDocumentsGo send bs fuel i docs).1.length) →
        (addDocumentsGo send bs fuel i docs).1.get ⟨j, hj⟩ =
          (docs.drop (bs * j)).take bs) ∧
      ((addDocumentsGo send bs fuel i docs).2 = none →
        (addDocumentsGo send bs fuel i docs).1.flatten = docs) ∧
      (∀ b ∈ (addDocumentsGo send bs fuel i docs).1, b ≠ [] ∧ b.length ≤ bs) ∧
      (∀ e, (addDocumentsGo send bs fuel i docs).2 = some e →
        ∃ k, (addDocumentsGo send bs fuel i docs).1.length = k + 1 ∧
          (send (i + bs * k) ((docs.drop (bs * k)).take bs)).ok = false ∧
          e = "Failed to add documents: " ++
            Nat.repr (send (i + bs * k) ((docs.drop (bs * k)).take bs)).status ++
            " " ++ (send (i + bs * k) ((docs.drop (bs * k)).take bs)).body ∧
          ∀ j < k, (send (i + bs * j) ((docs.drop (bs * j)).take bs)).ok = true) := by
  intro fuel
  induction fuel with
  | zero =>
    intro docs i hlen
    have hnil : docs = [] := List.eq_nil_of_length_eq_zero (by omega)
    subst hnil
    refine ⟨?_, ?_, ?_, ?_⟩ <;> simp [addDocumentsGo]
  | succ f ih =>
    intro docs i hlen
    cases docs with
    | nil => refine ⟨?_, ?_, ?_, ?_⟩ <;> simp [addDocumentsGo]
    | cons d ds =>
      obtain ⟨ih1, ih2, ih3, ih4⟩ := ih ((d :: ds).drop bs) (i + bs)
        (by simp only [List.length_drop]; simp at hlen ⊢; omega)
      have hbatch : ((d :: ds).take bs ≠ [] ∧ ((d :: ds).take bs).length ≤ bs) := by
        constructor
        · cases bs with
          | zero => omega
          | succ b => simp [List.take_succ_cons]
        · simp [List.length_take]
      cases hok : (send i ((d :: ds).take bs)).ok with
      | true =>
        have hgo : addDocumentsGo send bs (f + 1) i (d :: ds) =
            ((d :: ds).take bs ::
              (addDocumentsGo send bs f (i + bs) ((d :: ds).drop bs)).1,
              (addDocumentsGo send bs f (i + bs) ((d :: ds).drop bs)).2) := by
          simp [addDocumentsGo, hok]
        rw [hgo]
        refine ⟨?_, ?_, ?_, ?_⟩
        · intro j hj
          cases j with
          | zero => simp
          | succ j' =>
            simp only [List.length_cons] at hj
            have := ih1 j' (by omega)
            simp only [List.get_cons_succ]
            rw [this, List.drop_drop]
            have harith : bs + bs * j' = bs * (j' + 1) := by ring
            rw [harith]
        · intro hnone
          have := ih2 hnone
          simp only [List.flatten_cons]
          rw [this, List.take_append_drop]
        · intro b hb
          rcases List.mem_cons.mp hb with h | h
          · subst h; exact hbatch
          · exact ih3 b h
        · intro e he
          obtain ⟨k', hk1, hk2, hk3, hk4⟩ := ih4 e he
          refine ⟨k' + 1, by simp [hk1], ?_, ?_, ?_⟩
          · have hidx : i + bs * (k' + 1) = i + bs + bs * k' := by ring
            have hdrop : (d :: ds).drop (bs * (k' + 1)) =
                ((d :: ds).drop bs).drop (bs * k') := by
              rw [List.drop_drop]
              have : bs + bs * k' = bs * (k' + 1) := by ring
              rw [this]
            rw [hidx, hdrop]
            exact hk2
          · have hidx : i + bs * (k' + 1) = i + bs + bs * k' := by ring
            have hdrop : (d :: ds).drop (bs * (k' + 1)) =
                ((d :: ds).drop bs).drop (bs * k') := by
              rw [List.drop_drop]
              have : bs + bs * k' = bs * (k' + 1) := by ring
              rw [this]
            rw [hidx, hdrop]
            exact hk3
          · intro j hj
            cases j with
            | zero => simpa using hok
            | succ j' =>
              have hidx : i + bs * (j' + 1) = i + bs + bs * j' := by ring
              have hdrop : (d :: ds).drop (bs * (j' + 1)) =
                  ((d :: ds).drop bs).drop (bs * j') := by
                rw [List.drop_drop]
                have : bs + bs * j' = bs * (j' + 1) := by ring
                rw [this]
              rw [hidx, hdrop]
              exact hk4 j' (by omega)
      | false =>
        have hgo : addDocumentsGo send bs (f + 1) i (d :: ds) =
            ([(d :: ds).take bs],
              some ("Failed to add documents: " ++
                Nat.repr (send i ((d :: ds).take bs)).status ++
                " " ++ (send i ((d :: ds).take bs)).body)) := by
          simp [addDocumentsGo, hok]
        rw [hgo]
        refine ⟨?_, ?_, ?_, ?_⟩
        · intro j hj
          simp only [List.length_singleton] at hj
          have hj0 : j = 0 := by omega
          subst hj0
          simp
        · intro hnone
          cases hnone
        · intro b hb
          rcases List.mem_singleton.mp hb with h
          subst h
          exact hbatch
        · intro e he
          refine ⟨0, rfl, ?_, ?_, ?_⟩
          · simpa using hok
          · simp only [Option.some.injEq] at he
            simpa using he.symm
          · intro j hj
            omega

theorem addDocuments_eq_go (send : Nat → List Doc → FetchResponse)
    (docs : List Doc) (bs : Nat) :
    addDocuments send docs bs = addDocumentsGo send bs docs.length 0 docs := by
  cases docs with
  | nil => rfl
  | cons d ds => simp [addDocuments]

/-- **C6 counterexample.** Two runs that fail at *different* batch offsets
(the first at offset 0, having posted 1 batch; the second at offset 1,
having posted 2 batches) throw the *identical* error value: the thrown
error carries the backend status and body but does not carry the batch
offset, so the claim that the error carries the batch offset is false. -/
theorem addDocuments_error_no_offset :
    (addDocuments (fun _ _ => ⟨false, 500, "boom"⟩)
      [⟨"i0", "p", 1, 1, "x"⟩] 1).2 = some "Failed to add documents: 500 boom" ∧
    (addDocuments (fun i _ => if i == 0 then ⟨true, 202, "ok"⟩ else ⟨false, 500, "boom"⟩)
      [⟨"i0", "p", 1, 1, "x"⟩, ⟨"i1", "p", 1, 1, "y"⟩] 1).2 =
        some "Failed to add documents: 500 boom" ∧
    (addDocuments (fun _ _ => ⟨false, 500, "boom"⟩)
      [⟨"i0", "p", 1, 1, "x"⟩] 1).1.length = 1 ∧
    (addDocuments (fun i _ => if i == 0 then ⟨true, 202, "ok"⟩ else ⟨false, 500, "boom"⟩)
      [⟨"i0", "p", 1, 1, "x"⟩, ⟨"i1", "p", 1, 1, "y"⟩] 1).1.length = 2 := by
  refine ⟨by decide, by decide, by decide, by decide⟩

/-- **C6 amended.** `addDocuments` is a no-op for an empty list; batch `j`
is exactly the fixed-size slice `docs.slice(bs*j, bs*j + bs)` (so batches
are consecutive, in input order, all nonempty and of size `bs` except a
possibly-smaller last one); on success every document is posted, in order;
and the first failing batch aborts the call with an error carrying the
backend status and response body — but not the batch offset
(`addDocuments_error_no_offset`) — all earlier batches having succeeded. -/
theorem addDocuments_amended (send : Nat → List Doc → FetchResponse)
    (docs : List Doc) (bs : Nat) (hbs : 0 < bs) :
    (addDocuments send [] bs = ([], none)) ∧
    (∀ j, (hj : j < (addDocuments send docs bs).1.length) →
      (addDocuments send docs bs).1.get ⟨j, hj⟩ = (docs.drop (bs * j)).take bs) ∧
    ((addDocuments send docs bs).2 = none →
      (addDocuments send docs bs).1.flatten = docs) ∧
    (∀ b ∈ (addDocuments send docs bs).1, b ≠ [] ∧ b.length ≤ bs) ∧
    (∀ e, (addDocuments send docs bs).2 = some e →
      ∃ k, (addDocuments send docs bs).1.length = k + 1 ∧
        (send (bs * k) ((docs.drop (bs * k)).take bs)).ok = false ∧
        e = "Failed to add documents: " ++
          Nat.repr (send (bs * k) ((docs.drop (bs * k)).take bs)).status ++
          " " ++ (send (bs * k) ((docs.drop (bs * k)).take bs)).body ∧
        ∀ j < k, (send (bs * j) ((docs.drop (bs * j)).take bs)).ok = true) := by
  obtain ⟨h1, h2, h3, h4⟩ :=
    addDocumentsGo_spec send bs hbs docs.length docs 0 (Nat.le_refl _)
  rw [addDocuments_eq_go send docs bs]
  refine ⟨rfl, h1, h2, h3, ?_⟩
  intro e he
  obtain ⟨k, hk1, hk2, hk3, hk4⟩ := h4 e he
  simp only [Nat.zero_add] at hk2 hk3 hk4
  exact ⟨k, hk1, hk2, hk3, hk4⟩

/-- **C6 witness.** -/
theorem addDocuments_amended_witness :
    0 < 1 ∧
    ((addDocuments (fun _ _ => ⟨true, 200, "ok"⟩) [] 1 = ([], none)) ∧
    (∀ j, (hj : j < (addDocuments (fun _ _ => ⟨true, 200, "ok"⟩)
        [⟨"i0", "p", 1, 1, "x"⟩] 1).1.length) →
      (addDocuments (fun _ _ => ⟨true, 200, "ok"⟩)
        [⟨"i0", "p", 1, 1, "x"⟩] 1).1.get ⟨j, hj⟩ =
        (([⟨"i0", "p", 1, 1, "x"⟩] : List Doc).drop (1 * j)).take 1) ∧
    ((addDocuments (fun _ _ => ⟨true, 200, "ok"⟩) [⟨"i0", "p", 1, 1, "x"⟩] 1).2 = none →
      (addDocuments (fun _ _ => ⟨true, 200, "ok"⟩)
        [⟨"i0", "p", 1, 1, "x"⟩] 1).1.flatten = [⟨"i0", "p", 1, 1, "x"⟩]) ∧
    (∀ b ∈ (addDocuments (fun _ _ => ⟨true, 200, "ok"⟩)
        [⟨"i0", "p", 1, 1, "x"⟩] 1).1, b ≠ [] ∧ b.length ≤ 1) ∧
    (∀ e, (addDocuments (fun _ _ => ⟨true, 200, "ok"⟩)
        [⟨"i0", "p", 1, 1, "x"⟩] 1).2 = some e →
      ∃ k, (addDocuments (fun _ _ => ⟨true, 200, "ok"⟩)
          [⟨"i0", "p", 1, 1, "x"⟩] 1).1.length = k + 1 ∧
        ((fun (_ : Nat) (_ : List Doc) => (⟨true, 200, "ok"⟩ : FetchResponse)) (1 * k)
          ((([⟨"i0", "p", 1, 1, "x"⟩] : List Doc).drop (1 * k)).take 1)).ok = false ∧
        e = "Failed to add documents: " ++
          Nat.repr ((fun (_ : Nat) (_ : List Doc) => (⟨true, 200, "ok"⟩ : FetchResponse))
            (1 * k) ((([⟨"i0", "p", 1, 1, "x"⟩] : List Doc).drop (1 * k)).take 1)).status ++
          " " ++ ((fun (_ : Nat) (_ : List Doc) => (⟨true, 200, "ok"⟩ : FetchResponse))
            (1 * k) ((([⟨"i0", "p", 1, 1, "x"⟩] : List Doc).drop (1 * k)).take 1)).body ∧
        ∀ j < k, ((fun (_ : Nat) (_ : List Doc) => (⟨true, 200, "ok"⟩ : FetchResponse))
          (1 * j) ((([⟨"i0", "p", 1, 1, "x"⟩] : List Doc).drop (1 * j)).take 1)).ok = true)) :=
  ⟨by omega, addDocuments_amended (fun _ _ => ⟨true, 200, "ok"⟩)
    [⟨"i0", "p", 1, 1, "x"⟩] 1 (by omega)⟩

/-! ### `loadIgnore` (fsutil.ts:13-26) and the ignore matcher

`loadIgnore` seeds the matcher with `DEFAULT_IGNORES` (fsutil.ts:7,14) and
then appends the lines of the optional `.ragignore` and `.gitignore` files,
in that order (a missing file is skipped). The matching itself is performed
by the third-party `ignore` npm package, which is not code of this
repository; it is modelled from the spec below. -/

/-- `DEFAULT_IGNORES` (fsutil.ts:7). -/
def DEFAULT_IGNORES : List String :=
  ["node_modules", ".git", ".next", "dist", "build", ".meili-data"]

/-- `pat` is an initial segment of `p` (structural, so proofs can
evaluate it). -/
def charsLead : List Char → List Char → Bool
  | [], _ => true
  | _ :: _, [] => false
  | a :: as, b :: bs => a == b && charsLead as bs

/-- Modelled from the spec: the matching of one literal (wildcard-free)
gitignore pattern, per spec §6 — "line-oriented glob-style exclusion
patterns, same semantics as common VCS ignore files". A literal pattern
matches the path itself and everything below it. The built-in defaults and
the patterns used in the theorems are all literal, so globbing is not
modelled. -/
def matchesPlain (pat p : String) : Bool :=
  p == pat || charsLead (pat ++ "/").data p.data

/-- Modelled from the spec (§6, gitignore semantics): a rule starting with
`'!'` is a negation (re-include) pattern. -/
def isNegation (rule : String) : Bool :=
  match rule.data with
  | '!' :: _ => true
  | _ => false

/-- The pattern of a rule with any leading `'!'` stripped. -/
def ruleTail (rule : String) : String :=
  match rule.data with
  | '!' :: rest => String.mk rest
  | _ => rule

/-- Whether one rule (possibly a negation) matches a path. -/
def ruleMatches (rule p : String) : Bool :=
  if isNegation rule then matchesPlain (ruleTail rule) p else matchesPlain rule p

/-- Modelled from the spec: the verdict of a gitignore-style rule list on a
path — the *last* matching rule in order decides (ignored unless that rule
is a negation); a path matched by no rule is not ignored. This is the
semantics of the `ignore` npm package used by `loadIgnore`. -/
def ignores (rules : List String) (p : String) : Bool :=
  match (rules.filter (fun r => ruleMatches r p)).getLast? with
  | some r => !(isNegation r)
  | none => false

/-- `loadIgnore(root)` (fsutil.ts:13-26) as the rule list it compiles: the
fixed built-in set first, then the user rules (the concatenated lines of
`.ragignore` and `.gitignore`, in that order). -/
def loadIgnore (userRules : List String) : List String :=
  DEFAULT_IGNORES ++ userRules

/-- **C5 counterexample.** A user rule file consisting of the single line
`!node_modules` un-ignores `node_modules`, which the built-in set alone
ignores: under the gitignore semantics the spec itself assigns to the rule
files, the last matching rule wins, so user rules *can* override the
built-in set. The claim is false as stated. -/
theorem builtin_ignore_overridable :
    ignores DEFAULT_IGNORES "node_modules" = true ∧
    ignores (loadIgnore ["!node_modules"]) "node_modules" = false := by
  exact ⟨by decide, by decide⟩

/-- **C5 amended.** The built-in set is applied first, and user rules are
appended after it and evaluated with last-match-wins gitignore semantics —
so a user *negation* pattern can re-include a built-in-ignored path
(`builtin_ignore_overridable`); but whenever the user rule files contain no
negation pattern, every path the built-in set matches stays ignored,
whatever the user rules say. -/
theorem builtin_ignore_persists (userRules : List String) (p : String)
    (hneg : ∀ r ∈ userRules, isNegation r = false)
    (hbuiltin : ignores DEFAULT_IGNORES p = true) :
    ignores (loadIgnore userRules) p = true := by
  rw [ignores, loadIgnore, List.filter_append]
  by_cases hfu : userRules.filter (fun r => ruleMatches r p) = []
  · rw [hfu, List.append_nil]
    rw [ignores] at hbuiltin
    exact hbuiltin
  · rw [List.getLast?_append_of_ne_nil _ hfu]
    obtain ⟨r', hr'⟩ := Option.ne_none_iff_exists'.mp
      (mt List.getLast?_eq_none_iff.mp hfu)
    rw [hr']
    have hmem : r' ∈ userRules.filter (fun r => ruleMatches r p) :=
      List.mem_of_getLast?_eq_some hr'
    have : isNegation r' = false := hneg r' (List.mem_of_mem_filter hmem)
    simp [this]

/-- **C5 witness.** -/
theorem builtin_ignore_persists_witness :
    (∀ r ∈ (["src"] : List String), isNegation r = false) ∧
    ignores DEFAULT_IGNORES "node_modules" = true ∧
    ignores (loadIgnore ["src"]) "node_modules" = true :=
  ⟨by decide, by decide,
    builtin_ignore_persists ["src"] "node_modules" (by decide) (by decide)⟩

end CodebaseIndexing
